import Mathlib

/-!
Verification of the `dsa` repository's dynamic array
(`src/data-structures/dymanic_array/dynamic_array.py`) and string utilities
(`src/algorithms/strings/string_utility_methods.py`), shallowly embedded in
Lean 4.  Python's backing list of slots (`self.data`, holding live elements
or the placeholder `None`) is modelled as `List (Option α)`: `some x` is a
live element, `none` the `None` placeholder.  Indices supplied by callers
are modelled as `Int` (Python integers can be negative); a raised
`IndexError` is modelled as an `Option`-valued result being `none`.
-/

namespace DSA

/-- Python list indexing `d[j]` on a slot buffer; out of range gives `none`
(all in-bounds uses below stay in range, mirroring the source). -/
def nth {α : Type} : List (Option α) → Nat → Option α
  | [], _ => none
  | x :: _, 0 => x
  | _ :: d, j + 1 => nth d j

/-- `[f 0, f 1, ..., f (m-1)]`: a freshly allocated buffer whose slot `i`
holds `f i`.  Used to model `new_data = [None] * cap; for i in ...`. -/
def mkSlots {α : Type} (f : Nat → Option α) : Nat → List (Option α)
  | 0 => []
  | m + 1 => f 0 :: mkSlots (fun i => f (i + 1)) m

/-- The insert shift loop `i = size-1; while i >= index: data[i+1] = data[i]; i -= 1`,
run for `n` iterations starting from the highest position: iteration for
counter `n+1` writes slot `idx+n+1` from slot `idx+n`.  With `n = size - idx`
this performs exactly the source's high-to-low shift. -/
def shiftRightN {α : Type} : List (Option α) → Nat → Nat → List (Option α)
  | d, _, 0 => d
  | d, idx, n + 1 => shiftRightN (d.set (idx + n + 1) (nth d (idx + n))) idx n

/-- The delete shift loop `for i in range(index, size - 1): data[i] = data[i+1]`,
run for `n` iterations upward from position `i`.  With `n = size - 1 - index`
this performs exactly the source's low-to-high shift. -/
def shiftLeftN {α : Type} : List (Option α) → Nat → Nat → List (Option α)
  | d, _, 0 => d
  | d, i, n + 1 => shiftLeftN (d.set i (nth d (i + 1))) (i + 1) n

/-- State of `DynamicArray`: fields `capacity`, `size`, `data` as in the
source class. -/
structure DynamicArray (α : Type) where
  capacity : Nat
  size : Nat
  data : List (Option α)
deriving DecidableEq

namespace DynamicArray

variable {α : Type}

/-- `__init__`: capacity 2, size 0, `data = [None] * 2`. -/
def mk0 : DynamicArray α := ⟨2, 0, List.replicate 2 none⟩

/-- `_resize`: double the capacity, allocate `[None] * capacity`, copy the
`size` live slots `new_data[i] = data[i]` for `i in range(size)`. -/
def resize (a : DynamicArray α) : DynamicArray α :=
  ⟨a.capacity * 2, a.size,
    mkSlots (fun i => if i < a.size then nth a.data i else none) (a.capacity * 2)⟩

/-- The guard `if self.size == self.capacity: self._resize()` shared by
`append` and `insert`. -/
def grow (a : DynamicArray α) : DynamicArray α :=
  if a.size = a.capacity then a.resize else a

/-- `append`: grow when full, then `data[size] = element; size += 1`. -/
def append (a : DynamicArray α) (x : α) : DynamicArray α :=
  let a' := a.grow
  ⟨a'.capacity, a'.size + 1, a'.data.set a'.size (some x)⟩

/-- `insert`: raise (return `none`) when `index < 0 or index > size`;
otherwise grow when full, shift `data[i+1] = data[i]` for `i` from `size-1`
down to `index`, then `data[index] = element; size += 1`. -/
def insert (a : DynamicArray α) (index : Int) (x : α) : Option (DynamicArray α) :=
  if index < 0 ∨ (a.size : Int) < index then none
  else
    let a' := a.grow
    let idx := index.toNat
    some ⟨a'.capacity, a'.size + 1,
      (shiftRightN a'.data idx (a'.size - idx)).set idx (some x)⟩

/-- `delete`: raise (return `none`) when `index < 0 or index >= size`;
otherwise capture `data[index]`, shift `data[i] = data[i+1]` for `i` from
`index` to `size-2`, decrement `size`, clear the trailing slot, and return
the captured element together with the new state. -/
def delete (a : DynamicArray α) (index : Int) : Option (Option α × DynamicArray α) :=
  if index < 0 ∨ (a.size : Int) ≤ index then none
  else
    let idx := index.toNat
    some (nth a.data idx,
      ⟨a.capacity, a.size - 1,
        (shiftLeftN a.data idx (a.size - 1 - idx)).set (a.size - 1) none⟩)

/-- `get`: raise (return `none`) when `index < 0 or index >= size`, else
return slot `data[index]`. -/
def get (a : DynamicArray α) (index : Int) : Option (Option α) :=
  if index < 0 ∨ (a.size : Int) ≤ index then none
  else some (nth a.data index.toNat)

/-- Well-formedness of a state, as the spec's data model describes it:
`size ≤ capacity`, the buffer has exactly `capacity` slots, `capacity ≥ 2`,
and slots `[0, size)` hold live elements. -/
def WF (a : DynamicArray α) : Prop :=
  a.size ≤ a.capacity ∧ a.data.length = a.capacity ∧ 2 ≤ a.capacity ∧
    ∀ j, j < a.size → (nth a.data j).isSome

/-- States reachable from a fresh `DynamicArray` by the public mutating
operations (`get` never changes the state; failing `insert`/`delete`
leave it unchanged). -/
inductive Reachable : DynamicArray α → Prop
  | init : Reachable mk0
  | append (a : DynamicArray α) (x : α) : Reachable a → Reachable (a.append x)
  | insert (a b : DynamicArray α) (i : Int) (x : α) :
      Reachable a → a.insert i x = some b → Reachable b
  | delete (a b : DynamicArray α) (i : Int) (v : Option α) :
      Reachable a → a.delete i = some (v, b) → Reachable b

/-- Appending a whole list of elements, one `append` at a time. -/
def appendList (a : DynamicArray α) (l : List α) : DynamicArray α :=
  l.foldl DynamicArray.append a

instance decidableWF (a : DynamicArray α) : Decidable a.WF := by
  unfold WF; exact inferInstance

/-- `WF` together with the growth-policy fact that the capacity is a power
of two reachable by doubling from `2 = 2^1`. -/
def Inv (a : DynamicArray α) : Prop :=
  WF a ∧ ∃ k, 1 ≤ k ∧ a.capacity = 2 ^ k

/-- The exact relation between element count `n` and capacity `C` along a
pure-append trajectory from empty: `C` is a power of two at least
`max 2 n` and less than twice that, i.e. the smallest such power. -/
def CapInv (n C : Nat) : Prop :=
  max 2 n ≤ C ∧ C < 2 * max 2 n ∧ ∃ k, 1 ≤ k ∧ C = 2 ^ k

end DynamicArray

/-- Python string indexing `s[i]` (on the character list of the string);
the default is never read by the loops below, which keep indices in range. -/
def cget : List Char → Nat → Char
  | [], _ => ' '
  | c :: _, 0 => c
  | _ :: t, j + 1 => cget t j

/-- The loop `while left < right and not s[left].isalnum(): left += 1` of
`is_palindrome`, with an explicit iteration bound (`fuel`); run with
`fuel = right - left` the bound never binds, since `left` increases towards
`right` each iteration. -/
def skipLeftAux (s : List Char) (right : Nat) : Nat → Nat → Nat
  | 0, left => left
  | fuel + 1, left =>
    if left < right ∧ ¬ (cget s left).isAlphanum then
      skipLeftAux s right fuel (left + 1)
    else left

/-- The left-pointer skip loop of `is_palindrome`. -/
def skipLeft (s : List Char) (left right : Nat) : Nat :=
  skipLeftAux s right (right - left) left

/-- The loop `while left < right and not s[right].isalnum(): right -= 1` of
`is_palindrome`, with an explicit iteration bound that never binds when
`fuel = right - left`. -/
def skipRightAux (s : List Char) (left : Nat) : Nat → Nat → Nat
  | 0, right => right
  | fuel + 1, right =>
    if left < right ∧ ¬ (cget s right).isAlphanum then
      skipRightAux s left fuel (right - 1)
    else right

/-- The right-pointer skip loop of `is_palindrome`. -/
def skipRight (s : List Char) (left right : Nat) : Nat :=
  skipRightAux s left (right - left) right

/-- The outer `while left < right` loop of `is_palindrome`: skip
non-alphanumeric characters from both ends, compare lowercased characters,
return `False` on a mismatch, else move both pointers inward.  The fuel is
an explicit iteration bound; each iteration shrinks `right - left` by at
least 2, so fuel `s.length` never binds. -/
def palAux (s : List Char) : Nat → Nat → Nat → Bool
  | 0, _, _ => true
  | fuel + 1, left, right =>
    if left < right then
      let l := skipLeft s left right
      let r := skipRight s l right
      if (cget s l).toLower ≠ (cget s r).toLower then false
      else palAux s fuel (l + 1) (r - 1)
    else true

/-- `is_palindrome(s)`: two-pointer scan with `left = 0`,
`right = len(s) - 1`. -/
def is_palindrome (s : String) : Bool :=
  palAux s.data s.data.length 0 (s.data.length - 1)

/-- The loop of `remove_duplicates`: `for char in s: if char not in seen:
result.append(char); seen.add(char)`.  The `seen` set is modelled as the
list of characters added so far. -/
def rdLoop : List Char → List Char → List Char → List Char
  | [], _, result => result
  | c :: rest, seen, result =>
    if c ∉ seen then rdLoop rest (c :: seen) (result ++ [c])
    else rdLoop rest seen result

/-- `remove_duplicates(s)`: scan with empty `seen`/`result`, then
`''.join(result)`. -/
def remove_duplicates (s : String) : String := ⟨rdLoop s.data [] []⟩

/-- Proof-side restatement of the `remove_duplicates` loop without the
result accumulator: keeps the characters of `s` not yet seen, in order of
first occurrence. -/
def fo : List Char → List Char → List Char
  | [], _ => []
  | c :: rest, seen =>
    if c ∉ seen then c :: fo rest (c :: seen) else fo rest seen

/-- The slice `s[l..r]` (both ends inclusive) of a character list, read
through `cget`. -/
def seg (s : List Char) (l r : Nat) : List Char :=
  (List.range' l (r + 1 - l)).map (cget s)

/-- The lowercased alphanumeric subsequence of a character list — the
sequence the palindrome claim speaks about. -/
def alnumLower (t : List Char) : List Char :=
  (t.filter Char.isAlphanum).map Char.toLower

section SlotLemmas

variable {α : Type}

theorem nth_set_self :
    ∀ (d : List (Option α)) (j : Nat) (x : Option α), j < d.length →
      nth (d.set j x) j = x := by
  intro d
  induction d with
  | nil => intro j x h; simp at h
  | cons a t ih =>
    intro j x h
    cases j with
    | zero => rfl
    | succ j => exact ih j x (by simpa using h)

theorem nth_set_ne :
    ∀ (d : List (Option α)) (i j : Nat) (x : Option α), i ≠ j →
      nth (d.set i x) j = nth d j := by
  intro d
  induction d with
  | nil => intro i j x _; rfl
  | cons a t ih =>
    intro i j x h
    cases i with
    | zero =>
      cases j with
      | zero => exact absurd rfl h
      | succ j => rfl
    | succ i =>
      cases j with
      | zero => rfl
      | succ j => exact ih i j x (fun hq => h (by rw [hq]))

theorem length_shiftRightN :
    ∀ (n : Nat) (d : List (Option α)) (idx : Nat),
      (shiftRightN d idx n).length = d.length := by
  intro n
  induction n with
  | zero => intro d idx; rfl
  | succ n ih =>
    intro d idx
    rw [shiftRightN, ih, List.length_set]

theorem length_shiftLeftN :
    ∀ (n : Nat) (d : List (Option α)) (i : Nat),
      (shiftLeftN d i n).length = d.length := by
  intro n
  induction n with
  | zero => intro d i; rfl
  | succ n ih =>
    intro d i
    rw [shiftLeftN, ih, List.length_set]

theorem nth_shiftRightN :
    ∀ (n : Nat) (d : List (Option α)) (idx j : Nat), idx + n < d.length →
      nth (shiftRightN d idx n) j =
        if idx < j ∧ j ≤ idx + n then nth d (j - 1) else nth d j := by
  intro n
  induction n with
  | zero =>
    intro d idx j _
    rw [shiftRightN, if_neg (by omega)]
  | succ n ih =>
    intro d idx j h
    rw [shiftRightN, ih _ _ j (by rw [List.length_set]; omega)]
    by_cases h1 : idx < j ∧ j ≤ idx + n
    · rw [if_pos h1, if_pos (by omega)]
      exact nth_set_ne _ _ _ _ (by omega)
    · rw [if_neg h1]
      by_cases h2 : j = idx + n + 1
      · subst h2
        rw [if_pos (by omega), nth_set_self _ _ _ (by omega)]
        congr 1
      · rw [if_neg (by omega)]
        exact nth_set_ne _ _ _ _ (fun hq => h2 hq.symm)

theorem nth_shiftLeftN :
    ∀ (n : Nat) (d : List (Option α)) (i j : Nat), i + n < d.length →
      nth (shiftLeftN d i n) j =
        if i ≤ j ∧ j < i + n then nth d (j + 1) else nth d j := by
  intro n
  induction n with
  | zero =>
    intro d i j _
    rw [shiftLeftN, if_neg (by omega)]
  | succ n ih =>
    intro d i j h
    rw [shiftLeftN, ih _ _ j (by rw [List.length_set]; omega)]
    by_cases h1 : i + 1 ≤ j ∧ j < i + 1 + n
    · rw [if_pos h1, if_pos (by omega)]
      exact nth_set_ne _ _ _ _ (by omega)
    · rw [if_neg h1]
      by_cases h2 : j = i
      · subst h2
        rw [if_pos (by omega), nth_set_self _ _ _ (by omega)]
      · rw [if_neg (by omega)]
        exact nth_set_ne _ _ _ _ (fun hq => h2 hq.symm)

theorem length_mkSlots :
    ∀ (m : Nat) (f : Nat → Option α), (mkSlots f m).length = m := by
  intro m
  induction m with
  | zero => intro f; rfl
  | succ m ih =>
    intro f
    show (mkSlots (fun i => f (i + 1)) m).length + 1 = m + 1
    rw [ih]

theorem nth_mkSlots :
    ∀ (m : Nat) (f : Nat → Option α) (j : Nat),
      nth (mkSlots f m) j = if j < m then f j else none := by
  intro m
  induction m with
  | zero =>
    intro f j
    rw [if_neg (by omega)]
    rfl
  | succ m ih =>
    intro f j
    cases j with
    | zero => rw [if_pos (by omega)]; rfl
    | succ j =>
      show nth (mkSlots (fun i => f (i + 1)) m) j = _
      rw [ih]
      by_cases h : j < m
      · rw [if_pos h, if_pos (by omega)]
      · rw [if_neg h, if_neg (by omega)]

end SlotLemmas

namespace DynamicArray

variable {α : Type}

theorem grow_size (a : DynamicArray α) : a.grow.size = a.size := by
  unfold grow resize
  split <;> rfl

theorem grow_capacity (a : DynamicArray α) :
    a.grow.capacity = if a.size = a.capacity then a.capacity * 2 else a.capacity := by
  unfold grow
  split <;> rfl

theorem capacity_le_grow (a : DynamicArray α) : a.capacity ≤ a.grow.capacity := by
  rw [grow_capacity]
  split <;> omega

theorem grow_length (a : DynamicArray α) (h : a.data.length = a.capacity) :
    a.grow.data.length = a.grow.capacity := by
  unfold grow
  by_cases hc : a.size = a.capacity
  · rw [if_pos hc]
    show (mkSlots _ _).length = a.capacity * 2
    rw [length_mkSlots]
  · rw [if_neg hc]
    exact h

theorem size_lt_grow_capacity (a : DynamicArray α)
    (hsz : a.size ≤ a.capacity) (hc1 : 1 ≤ a.capacity) :
    a.size < a.grow.capacity := by
  rw [grow_capacity]
  by_cases hc : a.size = a.capacity
  · rw [if_pos hc]; omega
  · rw [if_neg hc]; omega

theorem nth_grow (a : DynamicArray α) (j : Nat) (hj : j < a.size) :
    nth a.grow.data j = nth a.data j := by
  unfold grow
  by_cases hc : a.size = a.capacity
  · rw [if_pos hc]
    show nth (mkSlots _ (a.capacity * 2)) j = _
    rw [nth_mkSlots, if_pos (by omega), if_pos hj]
  · rw [if_neg hc]

theorem grow_pow (a : DynamicArray α) (h : ∃ k, 1 ≤ k ∧ a.capacity = 2 ^ k) :
    ∃ k, 1 ≤ k ∧ a.grow.capacity = 2 ^ k := by
  obtain ⟨k, hk, hcap⟩ := h
  rw [grow_capacity]
  by_cases hc : a.size = a.capacity
  · rw [if_pos hc]
    exact ⟨k + 1, by omega, by rw [hcap, pow_succ]⟩
  · rw [if_neg hc]
    exact ⟨k, hk, hcap⟩

theorem insert_eq_some (a : DynamicArray α) (i : Nat) (v : α) (hi : i ≤ a.size) :
    a.insert (i : Int) v =
      some ⟨a.grow.capacity, a.size + 1,
        (shiftRightN a.grow.data i (a.size - i)).set i (some v)⟩ := by
  unfold insert
  rw [if_neg (by omega)]
  simp only [Int.toNat_natCast, grow_size]

theorem delete_eq_some (a : DynamicArray α) (i : Nat) (hi : i < a.size) :
    a.delete (i : Int) =
      some (nth a.data i,
        ⟨a.capacity, a.size - 1,
          (shiftLeftN a.data i (a.size - 1 - i)).set (a.size - 1) none⟩) := by
  unfold delete
  rw [if_neg (by omega)]
  rw [Int.toNat_natCast]

theorem get_eq_some (a : DynamicArray α) (i : Nat) (hi : i < a.size) :
    a.get (i : Int) = some (nth a.data i) := by
  unfold get
  rw [if_neg (by omega)]
  rw [Int.toNat_natCast]

theorem append_def (a : DynamicArray α) (x : α) :
    a.append x = ⟨a.grow.capacity, a.size + 1, a.grow.data.set a.size (some x)⟩ := by
  unfold append
  simp only [grow_size]

theorem insert_spec (a : DynamicArray α) (h : a.WF) (i : Nat) (v : α)
    (hi : i ≤ a.size) :
    ∀ b, a.insert (i : Int) v = some b →
      b.size = a.size + 1 ∧ b.capacity = a.grow.capacity ∧
      b.data.length = b.capacity ∧
      nth b.data i = some v ∧
      (∀ j, j < i → nth b.data j = nth a.data j) ∧
      (∀ j, i ≤ j → j < a.size → nth b.data (j + 1) = nth a.data j) ∧
      b.WF := by
  obtain ⟨hsz, hlen, hcap2, hlive⟩ := h
  intro b hb
  rw [insert_eq_some a i v hi] at hb
  injection hb with hb
  subst hb
  have hglen : a.grow.data.length = a.grow.capacity := grow_length a hlen
  have hlt : a.size < a.grow.capacity := size_lt_grow_capacity a hsz (by omega)
  have hbound : i + (a.size - i) < a.grow.data.length := by rw [hglen]; omega
  have hDlen : ((shiftRightN a.grow.data i (a.size - i)).set i (some v)).length
      = a.grow.capacity := by
    rw [List.length_set, length_shiftRightN, hglen]
  have hnth_i : nth ((shiftRightN a.grow.data i (a.size - i)).set i (some v)) i
      = some v :=
    nth_set_self _ _ _ (by rw [length_shiftRightN, hglen]; omega)
  have hnth_lo : ∀ j, j < i →
      nth ((shiftRightN a.grow.data i (a.size - i)).set i (some v)) j
        = nth a.data j := by
    intro j hj
    rw [nth_set_ne _ _ _ _ (by omega), nth_shiftRightN _ _ _ _ hbound,
      if_neg (by omega)]
    exact nth_grow a j (by omega)
  have hnth_hi : ∀ j, i ≤ j → j < a.size →
      nth ((shiftRightN a.grow.data i (a.size - i)).set i (some v)) (j + 1)
        = nth a.data j := by
    intro j hj1 hj2
    rw [nth_set_ne _ _ _ _ (by omega), nth_shiftRightN _ _ _ _ hbound,
      if_pos (by omega), Nat.add_sub_cancel]
    exact nth_grow a j hj2
  refine ⟨rfl, rfl, hDlen, hnth_i, hnth_lo, hnth_hi, ?_, hDlen, ?_, ?_⟩
  · show a.size + 1 ≤ a.grow.capacity
    omega
  · exact le_trans hcap2 (capacity_le_grow a)
  · intro j hj
    have hj1 : j < a.size + 1 := hj
    rcases lt_trichotomy j i with hc | hc | hc
    · rw [hnth_lo j hc]
      exact hlive j (by omega)
    · subst hc
      rw [hnth_i]
      rfl
    · have hj2 : j - 1 + 1 = j := by omega
      rw [← hj2, hnth_hi (j - 1) (by omega) (by omega)]
      exact hlive (j - 1) (by omega)

theorem delete_spec (a : DynamicArray α) (h : a.WF) (i : Nat) (hi : i < a.size) :
    ∀ v b, a.delete (i : Int) = some (v, b) →
      v = nth a.data i ∧ b.capacity = a.capacity ∧ b.size = a.size - 1 ∧
      b.data.length = a.capacity ∧
      (∀ j, j < i → nth b.data j = nth a.data j) ∧
      (∀ j, i ≤ j → j < a.size - 1 → nth b.data j = nth a.data (j + 1)) ∧
      nth b.data (a.size - 1) = none ∧ b.WF := by
  obtain ⟨hsz, hlen, hcap2, hlive⟩ := h
  intro v b hb
  rw [delete_eq_some a i hi] at hb
  injection hb with hb
  rw [Prod.mk.injEq] at hb
  obtain ⟨hb1, hb2⟩ := hb
  subst hb1
  subst hb2
  have hbound : i + (a.size - 1 - i) < a.data.length := by rw [hlen]; omega
  have hDlen :
      ((shiftLeftN a.data i (a.size - 1 - i)).set (a.size - 1) none).length
        = a.capacity := by
    rw [List.length_set, length_shiftLeftN, hlen]
  have hlo : ∀ j, j < i →
      nth ((shiftLeftN a.data i (a.size - 1 - i)).set (a.size - 1) none) j
        = nth a.data j := by
    intro j hj
    rw [nth_set_ne _ _ _ _ (by omega), nth_shiftLeftN _ _ _ _ hbound,
      if_neg (by omega)]
  have hmid : ∀ j, i ≤ j → j < a.size - 1 →
      nth ((shiftLeftN a.data i (a.size - 1 - i)).set (a.size - 1) none) j
        = nth a.data (j + 1) := by
    intro j hj1 hj2
    rw [nth_set_ne _ _ _ _ (by omega), nth_shiftLeftN _ _ _ _ hbound,
      if_pos (by omega)]
  have hlast :
      nth ((shiftLeftN a.data i (a.size - 1 - i)).set (a.size - 1) none)
        (a.size - 1) = none :=
    nth_set_self _ _ _ (by rw [length_shiftLeftN, hlen]; omega)
  refine ⟨rfl, rfl, rfl, hDlen, hlo, hmid, hlast, ?_, hDlen, hcap2, ?_⟩
  · show a.size - 1 ≤ a.capacity
    omega
  · intro j hj
    have hj1 : j < a.size - 1 := hj
    by_cases hc : j < i
    · rw [hlo j hc]
      exact hlive j (by omega)
    · rw [hmid j (by omega) hj1]
      exact hlive (j + 1) (by omega)

theorem append_spec (a : DynamicArray α) (h : a.WF) (x : α) :
    (a.append x).size = a.size + 1 ∧ (a.append x).capacity = a.grow.capacity ∧
    nth (a.append x).data a.size = some x ∧
    (∀ j, j < a.size → nth (a.append x).data j = nth a.data j) ∧
    (a.append x).WF := by
  obtain ⟨hsz, hlen, hcap2, hlive⟩ := h
  rw [append_def]
  have hglen : a.grow.data.length = a.grow.capacity := grow_length a hlen
  have hlt : a.size < a.grow.capacity := size_lt_grow_capacity a hsz (by omega)
  have hset : nth (a.grow.data.set a.size (some x)) a.size = some x :=
    nth_set_self _ _ _ (by rw [hglen]; omega)
  have hpres : ∀ j, j < a.size →
      nth (a.grow.data.set a.size (some x)) j = nth a.data j := by
    intro j hj
    rw [nth_set_ne _ _ _ _ (by omega)]
    exact nth_grow a j hj
  refine ⟨rfl, rfl, hset, hpres, ?_, ?_, ?_, ?_⟩
  · show a.size + 1 ≤ a.grow.capacity
    omega
  · show (a.grow.data.set a.size (some x)).length = a.grow.capacity
    rw [List.length_set, hglen]
  · exact le_trans hcap2 (capacity_le_grow a)
  · intro j hj
    have hj1 : j < a.size + 1 := hj
    by_cases hc : j < a.size
    · rw [hpres j hc]
      exact hlive j hc
    · have hje : j = a.size := by omega
      rw [hje, hset]
      rfl

theorem mk0_Inv : (mk0 : DynamicArray α).Inv := by
  refine ⟨⟨Nat.zero_le 2, ?_, le_refl 2, ?_⟩, 1, le_refl 1, rfl⟩
  · show (List.replicate 2 (none : Option α)).length = 2
    rw [List.length_replicate]
  · intro j hj
    exact absurd (show j < 0 from hj) (by omega)

theorem Inv_append (a : DynamicArray α) (h : a.Inv) (x : α) : (a.append x).Inv := by
  refine ⟨(append_spec a h.1 x).2.2.2.2, ?_⟩
  rw [(append_spec a h.1 x).2.1]
  exact grow_pow a h.2

theorem Inv_insert (a b : DynamicArray α) (i : Int) (x : α) (h : a.Inv)
    (hb : a.insert i x = some b) : b.Inv := by
  by_cases hc : i < 0 ∨ (a.size : Int) < i
  · exfalso
    unfold insert at hb
    rw [if_pos hc] at hb
    exact Option.noConfusion hb
  · obtain ⟨iN, rfl⟩ : ∃ n : Nat, (n : Int) = i :=
      ⟨i.toNat, Int.toNat_of_nonneg (by omega)⟩
    have hiN : iN ≤ a.size := by omega
    have spec := insert_spec a h.1 iN x hiN b hb
    refine ⟨spec.2.2.2.2.2.2, ?_⟩
    rw [spec.2.1]
    exact grow_pow a h.2

theorem Inv_delete (a b : DynamicArray α) (i : Int) (v : Option α) (h : a.Inv)
    (hb : a.delete i = some (v, b)) : b.Inv := by
  by_cases hc : i < 0 ∨ (a.size : Int) ≤ i
  · exfalso
    unfold delete at hb
    rw [if_pos hc] at hb
    exact Option.noConfusion hb
  · obtain ⟨iN, rfl⟩ : ∃ n : Nat, (n : Int) = i :=
      ⟨i.toNat, Int.toNat_of_nonneg (by omega)⟩
    have hiN : iN < a.size := by omega
    have spec := delete_spec a h.1 iN hiN v b hb
    refine ⟨spec.2.2.2.2.2.2.2, ?_⟩
    rw [spec.2.1]
    exact h.2

theorem Reachable_Inv (a : DynamicArray α) (h : Reachable a) : a.Inv := by
  induction h with
  | init => exact mk0_Inv
  | append a x _ ih => exact Inv_append a ih x
  | insert a b i x _ hb ih => exact Inv_insert a b i x ih hb
  | delete a b i v _ hb ih => exact Inv_delete a b i v ih hb

/-- C1: for every sequence of public operations starting from a freshly
constructed `DynamicArray`, the state satisfies `0 ≤ size ≤ capacity`,
`capacity ≥ 2`, and `capacity = 2^k` for some `k ≥ 1` (a power of two
reachable by repeated doubling from 2). -/
theorem claim_C1_invariant (a : DynamicArray α) (h : Reachable a) :
    0 ≤ a.size ∧ a.size ≤ a.capacity ∧ 2 ≤ a.capacity ∧
      ∃ k, 1 ≤ k ∧ a.capacity = 2 ^ k := by
  obtain ⟨⟨h1, _, h3, _⟩, hpow⟩ := Reachable_Inv a h
  exact ⟨Nat.zero_le _, h1, h3, hpow⟩

/-- Witness for C1: the state reached by appending 10, 20, 30 to a fresh
array is reachable and satisfies the capacity bound. -/
theorem claim_C1_invariant_witness :
    2 ≤ ((((mk0 : DynamicArray Nat).append 10).append 20).append 30).capacity ∧
    ((((mk0 : DynamicArray Nat).append 10).append 20).append 30).size ≤
      ((((mk0 : DynamicArray Nat).append 10).append 20).append 30).capacity :=
  ⟨(claim_C1_invariant _ (Reachable.append _ 30 (Reachable.append _ 20
      (Reachable.append _ 10 Reachable.init)))).2.2.1,
   (claim_C1_invariant _ (Reachable.append _ 30 (Reachable.append _ 20
      (Reachable.append _ 10 Reachable.init)))).2.1⟩

/-- C2: `get` and `delete` signal OutOfRange (modelled as a `none` result)
exactly when `index < 0 ∨ index ≥ size`, and `insert` exactly when
`index < 0 ∨ index > size`.  The embedding is purely functional, so a
`none` result carries no modified state: as in the source, validation
precedes every write, and no partial mutation can occur on failure. -/
theorem claim_C2_out_of_range (a : DynamicArray α) (i : Int) (x : α) :
    (a.get i = none ↔ (i < 0 ∨ (a.size : Int) ≤ i)) ∧
    (a.delete i = none ↔ (i < 0 ∨ (a.size : Int) ≤ i)) ∧
    (a.insert i x = none ↔ (i < 0 ∨ (a.size : Int) < i)) := by
  refine ⟨?_, ?_, ?_⟩
  · unfold get
    by_cases hc : i < 0 ∨ (a.size : Int) ≤ i
    · rw [if_pos hc]
      exact iff_of_true rfl hc
    · rw [if_neg hc]
      exact iff_of_false (Option.some_ne_none _) hc
  · unfold delete
    by_cases hc : i < 0 ∨ (a.size : Int) ≤ i
    · rw [if_pos hc]
      exact iff_of_true rfl hc
    · rw [if_neg hc]
      exact iff_of_false (fun hcc => Option.noConfusion hcc) hc
  · unfold insert
    by_cases hc : i < 0 ∨ (a.size : Int) < i
    · rw [if_pos hc]
      exact iff_of_true rfl hc
    · rw [if_neg hc]
      exact iff_of_false (fun hcc => Option.noConfusion hcc) hc

theorem CapInv_append (a : DynamicArray α) (x : α) (h : CapInv a.size a.capacity) :
    CapInv (a.append x).size (a.append x).capacity := by
  obtain ⟨h1, h2, k, hk, hC⟩ := h
  have hsize : (a.append x).size = a.size + 1 := by rw [append_def]
  have hcap : (a.append x).capacity
      = if a.size = a.capacity then a.capacity * 2 else a.capacity := by
    rw [append_def]
    exact grow_capacity a
  rw [hsize, hcap]
  by_cases hc : a.size = a.capacity
  · rw [if_pos hc]
    exact ⟨by omega, by omega, k + 1, by omega, by rw [hC, pow_succ]⟩
  · rw [if_neg hc]
    exact ⟨by omega, by omega, k, hk, hC⟩

theorem appendList_spec (l : List α) :
    ∀ a : DynamicArray α, CapInv a.size a.capacity →
      (appendList a l).size = a.size + l.length ∧
      CapInv (appendList a l).size (appendList a l).capacity := by
  induction l with
  | nil =>
    intro a h
    exact ⟨rfl, h⟩
  | cons x xs ih =>
    intro a h
    have hrec := ih (a.append x) (CapInv_append a x h)
    refine ⟨?_, hrec.2⟩
    have hstep : appendList a (x :: xs) = appendList (a.append x) xs := rfl
    have hsize : (a.append x).size = a.size + 1 := by rw [append_def]
    rw [hstep, hrec.1, hsize, List.length_cons]
    omega

theorem mk0_CapInv : CapInv (mk0 : DynamicArray α).size (mk0 : DynamicArray α).capacity := by
  refine ⟨?_, ?_, 1, le_refl 1, rfl⟩
  · show max 2 0 ≤ 2
    omega
  · show 2 < 2 * max 2 0
    omega

/-- C3: appending `n` elements to a fresh `DynamicArray` yields `size = n`
and capacity the smallest power of two that is `≥ max 2 n`. -/
theorem claim_C3_append_growth (l : List α) :
    (appendList (mk0 : DynamicArray α) l).size = l.length ∧
    ∃ k, (appendList (mk0 : DynamicArray α) l).capacity = 2 ^ k ∧
      max 2 l.length ≤ 2 ^ k ∧
      ∀ m, max 2 l.length ≤ 2 ^ m → 2 ^ k ≤ 2 ^ m := by
  obtain ⟨hsize, h1, h2, k, hk, hC⟩ := appendList_spec l mk0 mk0_CapInv
  have h0 : (mk0 : DynamicArray α).size = 0 := rfl
  have hlen : (appendList (mk0 : DynamicArray α) l).size = l.length := by omega
  rw [hlen] at h1 h2
  refine ⟨hlen, k, hC, by omega, ?_⟩
  intro m hm
  rcases le_or_lt k m with hkm | hmk
  · exact Nat.pow_le_pow_right (by omega) hkm
  · exfalso
    have h4 : (2 : Nat) ^ m ≤ 2 ^ (k - 1) := Nat.pow_le_pow_right (by omega) (by omega)
    have h5 : (2 : Nat) ^ (k - 1) * 2 = 2 ^ k := by
      rw [← pow_succ]
      congr 1
      omega
    omega

/-- C4: for a well-formed state, a valid index `i ≤ size` and a value `v`,
after `insert(i, v)`: `get(i)` returns `v`, positions `j < i` are unchanged,
the element previously at `j ≥ i` is now at `j + 1`, and `size` grows by 1. -/
theorem claim_C4_insert_get (a : DynamicArray α) (h : a.WF) (i : Nat) (v : α)
    (hi : i ≤ a.size) (b : DynamicArray α) (hb : a.insert (i : Int) v = some b) :
    b.get (i : Int) = some (some v) ∧
    (∀ j : Nat, j < i → b.get (j : Int) = a.get (j : Int)) ∧
    (∀ j : Nat, i ≤ j → j < a.size → b.get ((j : Int) + 1) = a.get (j : Int)) ∧
    b.size = a.size + 1 := by
  obtain ⟨hbsize, hbcap, hblen, hnth_i, hlo, hhi, hWF⟩ := insert_spec a h i v hi b hb
  refine ⟨?_, ?_, ?_, hbsize⟩
  · rw [get_eq_some b i (by omega), hnth_i]
  · intro j hj
    rw [get_eq_some b j (by omega), get_eq_some a j (by omega), hlo j hj]
  · intro j hj1 hj2
    have hcast : ((j : Int) + 1) = ((j + 1 : Nat) : Int) := by push_cast; ring
    rw [hcast, get_eq_some b (j + 1) (by omega), get_eq_some a j (by omega),
      hhi j hj1 hj2]

/-- Witness for C4 at the well-formed state `⟨2, 1, [some 10, none]⟩` with
`insert(0, 7)`. -/
theorem claim_C4_insert_get_witness :
    (⟨2, 2, [some 7, some 10]⟩ : DynamicArray Nat).get (0 : Int) = some (some 7) :=
  (claim_C4_insert_get ⟨2, 1, [some 10, none]⟩ (by decide) 0 7 (by decide)
    ⟨2, 2, [some 7, some 10]⟩ (by decide)).1

/-- C5: deleting a valid index `i` captures the element previously there;
re-inserting the captured element at `i` succeeds and restores the original
logical sequence `[0, size)` exactly, with the original size. -/
theorem claim_C5_delete_insert (a : DynamicArray α) (h : a.WF) (i : Nat)
    (hi : i < a.size) (x : α) (b : DynamicArray α)
    (hb : a.delete (i : Int) = some (some x, b)) :
    (b.insert (i : Int) x).isSome ∧
    ∀ c, b.insert (i : Int) x = some c →
      c.size = a.size ∧ ∀ j : Nat, j < a.size → c.get (j : Int) = a.get (j : Int) := by
  obtain ⟨hv, hbcap, hbsize, hblen, hlo, hmid, hlast, hbWF⟩ :=
    delete_spec a h i hi (some x) b hb
  have hile : i ≤ b.size := by omega
  constructor
  · rw [insert_eq_some b i x hile]
    rfl
  · intro c hc
    obtain ⟨hcsize, hccap, hclen, hnth_i, hclo, hchi, hcWF⟩ :=
      insert_spec b hbWF i x hile c hc
    refine ⟨by omega, ?_⟩
    intro j hj
    rw [get_eq_some c j (by omega), get_eq_some a j hj]
    congr 1
    rcases lt_trichotomy j i with hc1 | hc1 | hc1
    · rw [hclo j hc1, hlo j hc1]
    · subst hc1
      rw [hnth_i, hv]
    · have hj1 : j - 1 + 1 = j := by omega
      rw [← hj1, hchi (j - 1) (by omega) (by omega),
        hmid (j - 1) (by omega) (by omega)]

/-- Witness for C5 at `⟨2, 2, [some 1, some 2]⟩` with `delete(0)` capturing
`1` and leaving `⟨2, 1, [some 2, none]⟩`. -/
theorem claim_C5_delete_insert_witness :
    ((⟨2, 1, [some 2, none]⟩ : DynamicArray Nat).insert (0 : Int) 1).isSome :=
  (claim_C5_delete_insert ⟨2, 2, [some 1, some 2]⟩ (by decide) 0 (by decide) 1
    ⟨2, 1, [some 2, none]⟩ (by decide)).1

/-- C6: the internal growth operation exactly doubles the capacity, copies
the `size` live slots in order starting at index 0, clears the remaining new
slots, and leaves `size` unchanged; and no public mutation ever decreases
the capacity. -/
theorem claim_C6_resize_growth (a : DynamicArray α) (h : a.WF) :
    a.resize.capacity = a.capacity * 2 ∧
    a.resize.size = a.size ∧
    (∀ j, j < a.size → nth a.resize.data j = nth a.data j) ∧
    (∀ j, a.size ≤ j → nth a.resize.data j = none) ∧
    (∀ x : α, a.capacity ≤ (a.append x).capacity) ∧
    (∀ (i : Int) (x : α) (b : DynamicArray α),
      a.insert i x = some b → a.capacity ≤ b.capacity) ∧
    (∀ (i : Int) (v : Option α) (b : DynamicArray α),
      a.delete i = some (v, b) → b.capacity = a.capacity) := by
  obtain ⟨hsz, hlen, hcap2, _⟩ := h
  refine ⟨rfl, rfl, ?_, ?_, ?_, ?_, ?_⟩
  · intro j hj
    show nth (mkSlots _ _) j = _
    rw [nth_mkSlots, if_pos (by omega), if_pos hj]
  · intro j hj
    show nth (mkSlots _ _) j = none
    rw [nth_mkSlots]
    by_cases hc : j < a.capacity * 2
    · rw [if_pos hc, if_neg (by omega)]
    · rw [if_neg hc]
  · intro x
    rw [append_def]
    exact capacity_le_grow a
  · intro i x b hb
    by_cases hc : i < 0 ∨ (a.size : Int) < i
    · exfalso
      unfold insert at hb
      rw [if_pos hc] at hb
      exact Option.noConfusion hb
    · obtain ⟨iN, rfl⟩ : ∃ n : Nat, (n : Int) = i :=
        ⟨i.toNat, Int.toNat_of_nonneg (by omega)⟩
      rw [insert_eq_some a iN x (by omega)] at hb
      injection hb with hb
      rw [← hb]
      exact capacity_le_grow a
  · intro i v b hb
    by_cases hc : i < 0 ∨ (a.size : Int) ≤ i
    · exfalso
      unfold delete at hb
      rw [if_pos hc] at hb
      exact Option.noConfusion hb
    · obtain ⟨iN, rfl⟩ : ∃ n : Nat, (n : Int) = i :=
        ⟨i.toNat, Int.toNat_of_nonneg (by omega)⟩
      rw [delete_eq_some a iN (by omega)] at hb
      injection hb with hb
      rw [Prod.mk.injEq] at hb
      rw [← hb.2]

/-- Witness for C6 at the full well-formed state `⟨2, 2, [some 1, some 2]⟩`. -/
theorem claim_C6_resize_growth_witness :
    (⟨2, 2, [some 1, some 2]⟩ : DynamicArray Nat).resize.capacity =
      (⟨2, 2, [some 1, some 2]⟩ : DynamicArray Nat).capacity * 2 :=
  (claim_C6_resize_growth ⟨2, 2, [some 1, some 2]⟩ (by decide)).1

/-- C7: on a non-empty array, `delete(size - 1)` succeeds with a
zero-iteration shift: it returns the element previously at `size - 1`,
decrements `size`, clears the vacated slot to the placeholder, and leaves
every slot `j < size - 1` untouched. -/
theorem claim_C7_delete_last (a : DynamicArray α) (h1 : 1 ≤ a.size) :
    a.delete ((a.size - 1 : Nat) : Int) =
      some (nth a.data (a.size - 1),
        ⟨a.capacity, a.size - 1, a.data.set (a.size - 1) none⟩) ∧
    ∀ j, j < a.size - 1 →
      nth (a.data.set (a.size - 1) none) j = nth a.data j := by
  constructor
  · rw [delete_eq_some a (a.size - 1) (by omega)]
    have h0 : a.size - 1 - (a.size - 1) = 0 := by omega
    rw [h0]
    rfl
  · intro j hj
    exact nth_set_ne _ _ _ _ (by omega)

/-- Witness for C7 at `⟨2, 2, [some 5, some 6]⟩`: `delete(1)` returns `6`
and leaves `⟨2, 1, [some 5, none]⟩`. -/
theorem claim_C7_delete_last_witness :
    (⟨2, 2, [some 5, some 6]⟩ : DynamicArray Nat).delete 1 =
      some (some 6, ⟨2, 1, [some 5, none]⟩) :=
  (claim_C7_delete_last ⟨2, 2, [some 5, some 6]⟩ (by decide)).1

/-- C10: for every state and value, `insert(size, v)` (insertion at the end,
with a zero-iteration shift loop) produces exactly the same state as
`append(v)`. -/
theorem claim_C10_insert_end_is_append (a : DynamicArray α) (v : α) :
    a.insert (a.size : Int) v = some (a.append v) := by
  rw [insert_eq_some a a.size v (le_refl _), append_def, Nat.sub_self]
  rfl

end DynamicArray

theorem skipLeftAux_le : ∀ (fuel : Nat) (s : List Char) (right left : Nat),
    left ≤ skipLeftAux s right fuel left := by
  intro fuel
  induction fuel with
  | zero => intro s right left; exact le_refl left
  | succ fuel ih =>
    intro s right left
    rw [skipLeftAux]
    split
    · exact le_trans (Nat.le_succ left) (ih s right (left + 1))
    · exact le_refl left

theorem skipLeftAux_le_right : ∀ (fuel : Nat) (s : List Char) (right left : Nat),
    left ≤ right → skipLeftAux s right fuel left ≤ right := by
  intro fuel
  induction fuel with
  | zero => intro s right left h; exact h
  | succ fuel ih =>
    intro s right left h
    rw [skipLeftAux]
    split
    next hcond => exact ih s right (left + 1) hcond.1
    next hcond => exact h

theorem skipLeftAux_stop : ∀ (fuel : Nat) (s : List Char) (right left : Nat),
    right - left ≤ fuel → skipLeftAux s right fuel left < right →
    (cget s (skipLeftAux s right fuel left)).isAlphanum := by
  intro fuel
  induction fuel with
  | zero =>
    intro s right left hf hlt
    rw [skipLeftAux] at hlt
    exact absurd hlt (by omega)
  | succ fuel ih =>
    intro s right left hf
    rw [skipLeftAux]
    split
    next hcond =>
      have h1 := hcond.1
      exact ih s right (left + 1) (by omega)
    next hcond =>
      intro hlt
      by_contra halnum
      exact hcond ⟨hlt, halnum⟩

theorem skipLeftAux_skipped : ∀ (fuel : Nat) (s : List Char) (right left j : Nat),
    left ≤ j → j < skipLeftAux s right fuel left → ¬ (cget s j).isAlphanum := by
  intro fuel
  induction fuel with
  | zero =>
    intro s right left j h1 h2
    rw [skipLeftAux] at h2
    exact absurd h2 (by omega)
  | succ fuel ih =>
    intro s right left j h1 h2
    rw [skipLeftAux] at h2
    by_cases hcond : left < right ∧ ¬ (cget s left).isAlphanum
    · rw [if_pos hcond] at h2
      by_cases hj : j = left
      · subst hj
        exact hcond.2
      · exact ih s right (left + 1) j (by omega) h2
    · rw [if_neg hcond] at h2
      exact absurd h2 (by omega)

theorem skipLeft_le (s : List Char) (l r : Nat) : l ≤ skipLeft s l r :=
  skipLeftAux_le (r - l) s r l

theorem skipLeft_le_right (s : List Char) (l r : Nat) (h : l ≤ r) :
    skipLeft s l r ≤ r :=
  skipLeftAux_le_right (r - l) s r l h

theorem skipLeft_stop (s : List Char) (l r : Nat) :
    skipLeft s l r < r → (cget s (skipLeft s l r)).isAlphanum :=
  skipLeftAux_stop (r - l) s r l (le_refl _)

theorem skipLeft_skipped (s : List Char) (l r j : Nat) (h1 : l ≤ j)
    (h2 : j < skipLeft s l r) : ¬ (cget s j).isAlphanum :=
  skipLeftAux_skipped (r - l) s r l j h1 h2

theorem skipRightAux_le : ∀ (fuel : Nat) (s : List Char) (left right : Nat),
    skipRightAux s left fuel right ≤ right := by
  intro fuel
  induction fuel with
  | zero => intro s left right; exact le_refl right
  | succ fuel ih =>
    intro s left right
    rw [skipRightAux]
    split
    · exact le_trans (ih s left (right - 1)) (Nat.sub_le right 1)
    · exact le_refl right

theorem skipRightAux_ge : ∀ (fuel : Nat) (s : List Char) (left right : Nat),
    left ≤ right → left ≤ skipRightAux s left fuel right := by
  intro fuel
  induction fuel with
  | zero => intro s left right h; exact h
  | succ fuel ih =>
    intro s left right h
    rw [skipRightAux]
    split
    next hcond =>
      have h1 := hcond.1
      exact ih s left (right - 1) (by omega)
    next hcond => exact h

theorem skipRightAux_stop : ∀ (fuel : Nat) (s : List Char) (left right : Nat),
    right - left ≤ fuel → left < skipRightAux s left fuel right →
    (cget s (skipRightAux s left fuel right)).isAlphanum := by
  intro fuel
  induction fuel with
  | zero =>
    intro s left right hf hlt
    rw [skipRightAux] at hlt
    exact absurd hlt (by omega)
  | succ fuel ih =>
    intro s left right hf
    rw [skipRightAux]
    split
    next hcond =>
      have h1 := hcond.1
      exact ih s left (right - 1) (by omega)
    next hcond =>
      intro hlt
      by_contra halnum
      exact hcond ⟨hlt, halnum⟩

theorem skipRightAux_skipped : ∀ (fuel : Nat) (s : List Char) (left right j : Nat),
    skipRightAux s left fuel right < j → j ≤ right → ¬ (cget s j).isAlphanum := by
  intro fuel
  induction fuel with
  | zero =>
    intro s left right j h2 h3
    rw [skipRightAux] at h2
    exact absurd h2 (by omega)
  | succ fuel ih =>
    intro s left right j h2 h3
    rw [skipRightAux] at h2
    by_cases hcond : left < right ∧ ¬ (cget s right).isAlphanum
    · rw [if_pos hcond] at h2
      by_cases hj : j = right
      · subst hj
        exact hcond.2
      · exact ih s left (right - 1) j h2 (by omega)
    · rw [if_neg hcond] at h2
      exact absurd h2 (by omega)

theorem skipRight_le (s : List Char) (l r : Nat) : skipRight s l r ≤ r :=
  skipRightAux_le (r - l) s l r

theorem skipRight_ge (s : List Char) (l r : Nat) (h : l ≤ r) :
    l ≤ skipRight s l r :=
  skipRightAux_ge (r - l) s l r h

theorem skipRight_stop (s : List Char) (l r : Nat) :
    l < skipRight s l r → (cget s (skipRight s l r)).isAlphanum :=
  skipRightAux_stop (r - l) s l r (le_refl _)

theorem skipRight_skipped (s : List Char) (l r j : Nat)
    (h1 : skipRight s l r < j) (h2 : j ≤ r) : ¬ (cget s j).isAlphanum :=
  skipRightAux_skipped (r - l) s l r j h1 h2

theorem palAux_true_of_le (fuel : Nat) (s : List Char) (l r : Nat) (h : r ≤ l) :
    palAux s fuel l r = true := by
  cases fuel with
  | zero => rfl
  | succ fuel =>
    rw [palAux, if_neg (by omega)]

theorem seg_cons (s : List Char) (l r : Nat) (h : l ≤ r) :
    seg s l r = cget s l :: seg s (l + 1) r := by
  unfold seg
  have h1 : r + 1 - l = (r - l) + 1 := by omega
  have h2 : r + 1 - (l + 1) = r - l := by omega
  rw [h1, h2, List.range'_succ, List.map_cons]

theorem seg_empty (s : List Char) (l r : Nat) (h : r < l) : seg s l r = [] := by
  unfold seg
  have h1 : r + 1 - l = 0 := by omega
  rw [h1]
  rfl

theorem seg_snoc (s : List Char) (l r : Nat) (h : l ≤ r) (h1 : 1 ≤ r) :
    seg s l r = seg s l (r - 1) ++ [cget s r] := by
  unfold seg
  have h2 : r + 1 - l = (r - l) + 1 := by omega
  have h3 : r - 1 + 1 - l = r - l := by omega
  rw [h2, h3, List.range'_concat, List.map_append]
  have h4 : l + 1 * (r - l) = r := by omega
  rw [h4, List.map_cons]
  rfl

theorem alnumLower_nil : alnumLower [] = [] := rfl

theorem alnumLower_cons_pos (c : Char) (t : List Char) (h : c.isAlphanum) :
    alnumLower (c :: t) = c.toLower :: alnumLower t := by
  unfold alnumLower
  rw [List.filter_cons_of_pos h, List.map_cons]

theorem alnumLower_cons_neg (c : Char) (t : List Char) (h : ¬ c.isAlphanum) :
    alnumLower (c :: t) = alnumLower t := by
  unfold alnumLower
  rw [List.filter_cons_of_neg h]

theorem alnumLower_append (t1 t2 : List Char) :
    alnumLower (t1 ++ t2) = alnumLower t1 ++ alnumLower t2 := by
  unfold alnumLower
  rw [List.filter_append, List.map_append]

theorem alnumLower_length_le (t : List Char) : (alnumLower t).length ≤ t.length := by
  unfold alnumLower
  rw [List.length_map]
  exact List.length_filter_le _ _

theorem length_le_one_palindrome (t : List Char) (h : t.length ≤ 1) :
    t = t.reverse := by
  cases t with
  | nil => rfl
  | cons a t2 =>
    cases t2 with
    | nil => rfl
    | cons b t3 =>
      rw [List.length_cons, List.length_cons] at h
      exact absurd h (by omega)

theorem seg_single_pal (s : List Char) (l r : Nat) (h : r ≤ l) :
    alnumLower (seg s l r) = (alnumLower (seg s l r)).reverse := by
  by_cases hc : r < l
  · rw [seg_empty s l r hc]
    rfl
  · have hrl : r = l := by omega
    rw [hrl, seg_cons s l l (le_refl l), seg_empty s (l + 1) l (by omega)]
    exact length_le_one_palindrome _ (alnumLower_length_le _)

theorem pal_cons_concat (a b : Char) (M : List Char) :
    (a :: (M ++ [b]) = (a :: (M ++ [b])).reverse) ↔ (a = b ∧ M = M.reverse) := by
  rw [List.reverse_cons, List.reverse_append, List.reverse_singleton,
    List.singleton_append, List.cons_append, List.cons.injEq]
  constructor
  · rintro ⟨hab, hMM⟩
    subst hab
    exact ⟨rfl, (List.append_inj hMM (by rw [List.length_reverse])).1⟩
  · rintro ⟨rfl, hM⟩
    exact ⟨rfl, by rw [← hM]⟩

theorem F_skip_left : ∀ (k : Nat) (s : List Char) (l l1 r : Nat),
    l1 - l = k → l ≤ l1 → l1 ≤ r + 1 →
    (∀ j, l ≤ j → j < l1 → ¬ (cget s j).isAlphanum) →
    alnumLower (seg s l r) = alnumLower (seg s l1 r) := by
  intro k
  induction k with
  | zero =>
    intro s l l1 r hk h1 h2 hskip
    have he : l = l1 := by omega
    rw [he]
  | succ k ih =>
    intro s l l1 r hk h1 h2 hskip
    rw [seg_cons s l r (by omega),
      alnumLower_cons_neg _ _ (hskip l (le_refl l) (by omega))]
    exact ih s (l + 1) l1 r (by omega) (by omega) h2
      (fun j hj1 hj2 => hskip j (by omega) hj2)

theorem F_skip_right : ∀ (k : Nat) (s : List Char) (l r1 r : Nat),
    r - r1 = k → r1 ≤ r → l ≤ r1 →
    (∀ j, r1 < j → j ≤ r → ¬ (cget s j).isAlphanum) →
    alnumLower (seg s l r) = alnumLower (seg s l r1) := by
  intro k
  induction k with
  | zero =>
    intro s l r1 r hk h1 h2 hskip
    have he : r = r1 := by omega
    rw [he]
  | succ k ih =>
    intro s l r1 r hk h1 h2 hskip
    rw [seg_snoc s l r (by omega) (by omega), alnumLower_append,
      alnumLower_cons_neg _ _ (hskip r (by omega) (le_refl r)), alnumLower_nil,
      List.append_nil]
    exact ih s l r1 (r - 1) (by omega) (by omega) h2
      (fun j hj1 hj2 => hskip j hj1 (by omega))

theorem drop_cget : ∀ (s : List Char) (l : Nat), l < s.length →
    s.drop l = cget s l :: s.drop (l + 1) := by
  intro s
  induction s with
  | nil =>
    intro l h
    exact absurd h (by simp)
  | cons c t ih =>
    intro l h
    cases l with
    | zero => rfl
    | succ l =>
      show t.drop l = cget t l :: t.drop (l + 1)
      rw [List.length_cons] at h
      exact ih l (by omega)

theorem map_cget_range : ∀ (n l : Nat) (s : List Char), l + n ≤ s.length →
    (List.range' l n).map (cget s) = (s.drop l).take n := by
  intro n
  induction n with
  | zero => intro l s h; rfl
  | succ n ih =>
    intro l s h
    rw [List.range'_succ, List.map_cons, ih (l + 1) s (by omega),
      drop_cget s l (by omega)]
    rfl

theorem seg_whole (s : List Char) (h : 1 ≤ s.length) : seg s 0 (s.length - 1) = s := by
  unfold seg
  have h1 : s.length - 1 + 1 - 0 = s.length := by omega
  rw [h1, map_cget_range s.length 0 s (by omega), List.drop_zero, List.take_length]

theorem palAux_iff : ∀ (fuel : Nat) (s : List Char) (l r : Nat), r - l ≤ fuel →
    (palAux s fuel l r = true ↔
      alnumLower (seg s l r) = (alnumLower (seg s l r)).reverse) := by
  intro fuel
  induction fuel with
  | zero =>
    intro s l r hf
    exact iff_of_true rfl (seg_single_pal s l r (by omega))
  | succ fuel ih =>
    intro s l r hf
    by_cases hlr : l < r
    · rw [palAux, if_pos hlr]
      show (if (cget s (skipLeft s l r)).toLower
              ≠ (cget s (skipRight s (skipLeft s l r) r)).toLower then false
            else palAux s fuel (skipLeft s l r + 1)
              (skipRight s (skipLeft s l r) r - 1)) = true ↔ _
      obtain ⟨l1, hl1⟩ : ∃ x, skipLeft s l r = x := ⟨_, rfl⟩
      rw [hl1]
      obtain ⟨r1, hr1⟩ : ∃ x, skipRight s l1 r = x := ⟨_, rfl⟩
      rw [hr1]
      have hll1 : l ≤ l1 := by
        have h := skipLeft_le s l r
        rw [hl1] at h
        exact h
      have hl1r : l1 ≤ r := by
        have h := skipLeft_le_right s l r (by omega)
        rw [hl1] at h
        exact h
      have hskipL : ∀ j, l ≤ j → j < l1 → ¬ (cget s j).isAlphanum := by
        intro j h1 h2
        rw [← hl1] at h2
        exact skipLeft_skipped s l r j h1 h2
      have hstopL : l1 < r → (cget s l1).isAlphanum := by
        have h := skipLeft_stop s l r
        rw [hl1] at h
        exact h
      have hl1r1 : l1 ≤ r1 := by
        have h := skipRight_ge s l1 r hl1r
        rw [hr1] at h
        exact h
      have hr1r : r1 ≤ r := by
        have h := skipRight_le s l1 r
        rw [hr1] at h
        exact h
      have hskipR : ∀ j, r1 < j → j ≤ r → ¬ (cget s j).isAlphanum := by
        intro j h1 h2
        rw [← hr1] at h1
        exact skipRight_skipped s l1 r j h1 h2
      have hstopR : l1 < r1 → (cget s r1).isAlphanum := by
        have h := skipRight_stop s l1 r
        rw [hr1] at h
        exact h
      have hF : alnumLower (seg s l r) = alnumLower (seg s l1 r1) := by
        rw [F_skip_left (l1 - l) s l l1 r rfl hll1 (by omega) hskipL]
        exact F_skip_right (r - r1) s l1 r1 r rfl hr1r hl1r1 hskipR
      by_cases heq : l1 = r1
      · rw [if_neg (not_ne_iff.mpr (by rw [heq]))]
        rw [palAux_true_of_le fuel s (l1 + 1) (r1 - 1) (by omega)]
        refine iff_of_true rfl ?_
        rw [hF]
        exact seg_single_pal s l1 r1 (by omega)
      · have hlt1 : l1 < r1 := by omega
        have hAl : (cget s l1).isAlphanum := hstopL (by omega)
        have hAr : (cget s r1).isAlphanum := hstopR hlt1
        have hseg2 : alnumLower (seg s l1 r1)
            = (cget s l1).toLower
              :: (alnumLower (seg s (l1 + 1) (r1 - 1)) ++ [(cget s r1).toLower]) := by
          rw [seg_cons s l1 r1 (by omega), seg_snoc s (l1 + 1) r1 (by omega) (by omega),
            alnumLower_cons_pos _ _ hAl, alnumLower_append,
            alnumLower_cons_pos _ _ hAr, alnumLower_nil]
        by_cases hcmp : (cget s l1).toLower ≠ (cget s r1).toLower
        · rw [if_pos hcmp]
          refine iff_of_false (by simp) ?_
          rw [hF, hseg2]
          intro hpal
          exact hcmp ((pal_cons_concat _ _ _).mp hpal).1
        · rw [if_neg hcmp]
          have hab : (cget s l1).toLower = (cget s r1).toLower := not_not.mp hcmp
          rw [ih s (l1 + 1) (r1 - 1) (by omega), hF, hseg2, pal_cons_concat]
          constructor
          · intro hM
            exact ⟨hab, hM⟩
          · intro hMM
            exact hMM.2
    · rw [palAux, if_neg hlr]
      exact iff_of_true rfl (seg_single_pal s l r (by omega))

/-- C8: `is_palindrome(s)` is true exactly when the lowercased alphanumeric
subsequence of `s` equals its own reverse (this subsumes the empty and
length-one cases, whose subsequence is trivially palindromic); in particular
the two documented scenarios hold. -/
theorem claim_C8_is_palindrome :
    (∀ s : String, is_palindrome s = true ↔
      alnumLower s.data = (alnumLower s.data).reverse) ∧
    is_palindrome "A man, a plan, a canal: Panama" = true ∧
    is_palindrome "race a car" = false := by
  refine ⟨?_, by decide, by decide⟩
  intro s
  unfold is_palindrome
  by_cases hlen : 1 ≤ s.data.length
  · rw [palAux_iff s.data.length s.data 0 (s.data.length - 1) (by omega),
      seg_whole s.data hlen]
  · have h0 : s.data.length = 0 := by omega
    have hnil : s.data = [] := List.length_eq_zero.mp h0
    rw [hnil]
    exact iff_of_true rfl rfl

theorem rdLoop_eq : ∀ s seen acc : List Char, rdLoop s seen acc = acc ++ fo s seen := by
  intro s
  induction s with
  | nil =>
    intro seen acc
    rw [rdLoop, fo, List.append_nil]
  | cons c rest ih =>
    intro seen acc
    by_cases hc : c ∉ seen
    · rw [rdLoop, fo, if_pos hc, if_pos hc, ih, List.append_assoc,
        List.singleton_append]
    · rw [rdLoop, fo, if_neg hc, if_neg hc, ih]

theorem mem_fo : ∀ (s seen : List Char) (c : Char),
    c ∈ fo s seen ↔ c ∈ s ∧ c ∉ seen := by
  intro s
  induction s with
  | nil =>
    intro seen c
    rw [fo]
    simp
  | cons d rest ih =>
    intro seen c
    by_cases hd : d ∉ seen
    · rw [fo, if_pos hd]
      constructor
      · intro hin
        rcases List.mem_cons.mp hin with rfl | hcf
        · exact ⟨List.mem_cons_self _ _, hd⟩
        · have hm := (ih (d :: seen) c).mp hcf
          refine ⟨List.mem_cons_of_mem _ hm.1, fun hcs => hm.2 (List.mem_cons_of_mem _ hcs)⟩
      · rintro ⟨hcm, hcs⟩
        rcases List.mem_cons.mp hcm with rfl | hcr
        · exact List.mem_cons_self _ _
        · by_cases hcd : c = d
          · subst hcd
            exact List.mem_cons_self _ _
          · refine List.mem_cons_of_mem _ ((ih (d :: seen) c).mpr ⟨hcr, ?_⟩)
            intro hmem
            rcases List.mem_cons.mp hmem with h1 | h1
            · exact hcd h1
            · exact hcs h1
    · rw [fo, if_neg hd, ih seen c]
      constructor
      · rintro ⟨h1, h2⟩
        exact ⟨List.mem_cons_of_mem _ h1, h2⟩
      · rintro ⟨h1, h2⟩
        rcases List.mem_cons.mp h1 with rfl | h1
        · exact absurd (not_not.mp hd) h2
        · exact ⟨h1, h2⟩

theorem nodup_fo : ∀ s seen : List Char, (fo s seen).Nodup := by
  intro s
  induction s with
  | nil =>
    intro seen
    rw [fo]
    exact List.nodup_nil
  | cons d rest ih =>
    intro seen
    by_cases hd : d ∉ seen
    · rw [fo, if_pos hd, List.nodup_cons]
      refine ⟨fun hmem => ?_, ih (d :: seen)⟩
      exact ((mem_fo rest (d :: seen) d).mp hmem).2 (List.mem_cons_self _ _)
    · rw [fo, if_neg hd]
      exact ih seen

theorem sublist_fo : ∀ s seen : List Char, (fo s seen).Sublist s := by
  intro s
  induction s with
  | nil =>
    intro seen
    rw [fo]
  | cons d rest ih =>
    intro seen
    by_cases hd : d ∉ seen
    · rw [fo, if_pos hd]
      exact List.Sublist.cons₂ d (ih (d :: seen))
    · rw [fo, if_neg hd]
      exact List.Sublist.cons d (ih seen)

theorem pairwise_fo : ∀ s seen : List Char,
    (fo s seen).Pairwise (fun a b => s.indexOf a < s.indexOf b) := by
  intro s
  induction s with
  | nil =>
    intro seen
    rw [fo]
    exact List.Pairwise.nil
  | cons d rest ih =>
    intro seen
    by_cases hd : d ∉ seen
    · rw [fo, if_pos hd, List.pairwise_cons]
      constructor
      · intro b hb
        have hmem := (mem_fo rest (d :: seen) b).mp hb
        have hbd : b ≠ d := fun hq => hmem.2 (hq ▸ List.mem_cons_self d seen)
        rw [List.indexOf_cons_self, List.indexOf_cons_ne _ (Ne.symm hbd)]
        exact Nat.succ_pos _
      · refine List.Pairwise.imp_of_mem ?_ (ih (d :: seen))
        intro a b ha hb hab
        have haD : a ≠ d := fun hq =>
          ((mem_fo rest (d :: seen) a).mp ha).2 (hq ▸ List.mem_cons_self d seen)
        have hbD : b ≠ d := fun hq =>
          ((mem_fo rest (d :: seen) b).mp hb).2 (hq ▸ List.mem_cons_self d seen)
        rw [List.indexOf_cons_ne _ (Ne.symm haD), List.indexOf_cons_ne _ (Ne.symm hbD)]
        omega
    · rw [fo, if_neg hd]
      refine List.Pairwise.imp_of_mem ?_ (ih seen)
      intro a b ha hb hab
      have hdseen : d ∈ seen := not_not.mp hd
      have haD : a ≠ d := fun hq => ((mem_fo rest seen a).mp ha).2 (hq ▸ hdseen)
      have hbD : b ≠ d := fun hq => ((mem_fo rest seen b).mp hb).2 (hq ▸ hdseen)
      rw [List.indexOf_cons_ne _ (Ne.symm haD), List.indexOf_cons_ne _ (Ne.symm hbD)]
      omega

theorem remove_duplicates_data (s : String) :
    (remove_duplicates s).data = fo s.data [] := by
  show rdLoop s.data [] [] = fo s.data []
  rw [rdLoop_eq, List.nil_append]

/-- C9: `remove_duplicates(s)` returns the first occurrence of each distinct
character of `s`, each exactly once (`Nodup`), containing exactly the
characters of `s`, as a subsequence of `s` ordered by position of first
occurrence; and `remove_duplicates("abcabc") = "abc"`. -/
theorem claim_C9_remove_duplicates :
    (∀ s : String,
      (remove_duplicates s).data.Nodup ∧
      (∀ c : Char, c ∈ (remove_duplicates s).data ↔ c ∈ s.data) ∧
      (remove_duplicates s).data.Sublist s.data ∧
      (remove_duplicates s).data.Pairwise
        (fun a b => s.data.indexOf a < s.data.indexOf b)) ∧
    remove_duplicates "abcabc" = "abc" := by
  refine ⟨?_, by decide⟩
  intro s
  rw [remove_duplicates_data]
  refine ⟨nodup_fo s.data [], ?_, sublist_fo s.data [], pairwise_fo s.data []⟩
  intro c
  rw [mem_fo]
  simp

end DSA
